import Mathlib

/-!
Verification of the juice dynamic-SQL renderer and XML loader.

This file gives a shallow embedding of the node tree and its render
operation (`node.go`), of the statement-body tag dispatcher and of the
external-mapper loader (XML parser source file), and proves or refutes
the specification claims about them.

Strings are modelled as `List Char` (`Str`); Go's `reflect.Value` is
modelled by the inductive `Value`; a parameter object is a lookup
function `Str → Option Value`; the dialect translator is `Str → Str`.
Recursive render functions take an explicit fuel argument so that every
definition is structurally recursive and evaluates inside the kernel;
`acceptNode` instantiates the fuel with a bound that always suffices.
-/

set_option maxHeartbeats 1000000
set_option maxRecDepth 4000

/-- Character strings, modelled as lists of characters. -/
abbrev Str : Type := List Char

/-- Runtime values, modelling the `reflect.Value` kinds the renderer
inspects: booleans, signed and unsigned integers, floats (modelled as
rationals), strings, slices and maps. -/
inductive Value where
  | vBool (b : Bool)
  | vInt (n : Int)
  | vUint (n : Nat)
  | vFloat (x : Rat)
  | vStr (s : Str)
  | vList (elems : List Value)
  | vMap (entries : List (Value × Value))
deriving Repr

/-- A parameter object: name lookup returning a value and an existence
flag, modelling `Parameter.Get`. -/
abbrev Param : Type := Str → Option Value

/-- The dialect translator: `Translate(name)` returns the positional
placeholder token for a named parameter. -/
abbrev Translator : Type := Str → Str

/-- Name characters admitted by the parameter regular expression
`[a-zA-Z0-9_.]` in `paramRegex` of node.go. -/
def isNameChar (c : Char) : Bool :=
  (decide ('a' ≤ c) && decide (c ≤ 'z')) ||
  (decide ('A' ≤ c) && decide (c ≤ 'Z')) ||
  (decide ('0' ≤ c) && decide (c ≤ '9')) ||
  c == '_' || c == '.'

/-- Attempt to match the placeholder pattern
`\#\{ *?([a-zA-Z0-9_.]+) *?\}` at the head of the string.  On success
returns the full matched text, the captured name, and the remainder of
the string after the match. -/
def tryMatchAfterOpen (lead : Char) (t : Str) : Option (Str × Str × Str) :=
  let sp1 := t.takeWhile (fun c => c == ' ')
  let r1 := t.dropWhile (fun c => c == ' ')
  let nm := r1.takeWhile isNameChar
  let r2 := r1.dropWhile isNameChar
  if nm.isEmpty then none
  else
    let sp2 := r2.takeWhile (fun c => c == ' ')
    let r3 := r2.dropWhile (fun c => c == ' ')
    match r3 with
    | '\x7d' :: r4 => some (lead :: '\x7b' :: (sp1 ++ nm ++ sp2 ++ ['\x7d']), nm, r4)
    | _ => none

def tryMatch : Str → Option (Str × Str × Str)
  | c0 :: c1 :: t =>
    if c0 = '#' ∧ c1 = '\x7b' then tryMatchAfterOpen '#' t else none
  | _ => none

/-- One scanning pass of `FindAllStringSubmatch` for the placeholder
regular expression, fuelled.  Returns the leading segment before the
first match together with the list of (matched text, captured name,
following segment) triples; the input is the concatenation of all the
segments and matches in order. -/
def scanPHF : Nat → Str → Str × List (Str × Str × Str)
  | 0, _ => ([], [])
  | _ + 1, [] => ([], [])
  | f + 1, c :: rest =>
    match tryMatch (c :: rest) with
    | some (m, nm, r) =>
      let x := scanPHF f r
      ([], (m, nm, x.1) :: x.2)
    | none =>
      let x := scanPHF f rest
      (c :: x.1, x.2)

/-- Decomposition of a string by the placeholder regular expression. -/
def scanPH (s : Str) : Str × List (Str × Str × Str) := scanPHF s.length s

/-- The precomputed placeholder match list of a `TextNode`
(`paramRegex.FindAllStringSubmatch` in `TextNode.build`): each match is
the pair (full matched text, captured name), in left-to-right order. -/
def findPlaceholders (s : Str) : List (Str × Str) :=
  (scanPH s).2.map (fun x => (x.1, x.2.1))

/-- Attempt to match the text-substitution pattern
`\$\{ *([a-zA-Z0-9_.]+) *\}` at the head of the string.  Modelled from
the spec: `formatRegexp` itself is defined outside the provided source
files; the spec gives this regular expression for `${…}` sites. -/
def trySub : Str → Option (Str × Str × Str)
  | c0 :: c1 :: t =>
    if c0 = '$' ∧ c1 = '\x7b' then tryMatchAfterOpen '$' t else none
  | _ => none

/-- Fuelled scanner for the text-substitution pattern. -/
def scanSubF : Nat → Str → List (Str × Str)
  | 0, _ => []
  | _ + 1, [] => []
  | f + 1, c :: rest =>
    match trySub (c :: rest) with
    | some (m, nm, r) => (m, nm) :: scanSubF f r
    | none => scanSubF f rest

/-- The precomputed text-substitution match list of a `TextNode`. -/
def findSubs (s : Str) : List (Str × Str) := scanSubF s.length s

/-- Go's `strings.Replace(s, old, new, 1)`: replace the first
occurrence of `old` in `s` by `new`; if `old` does not occur, return
`s` unchanged. -/
def replaceFirst : Str → Str → Str → Str
  | s, old, new =>
    if old.isPrefixOf s then new ++ s.drop old.length
    else
      match s with
      | [] => []
      | c :: r => c :: replaceFirst r old new

/-- `TextNode.replaceHolder`: walk the precomputed placeholder matches
in order; for each, resolve the captured name in the parameter scope
(a miss is an error), replace the first occurrence of the matched text
with the translator's token for that name, and append the resolved
value to the argument list. -/
def replaceHolder : List (Str × Str) → Str → List Value → Translator → Param →
    Except String (Str × List Value)
  | [], query, args, _, _ => .ok (query, args)
  | (matched, name) :: rest, query, args, tr, p =>
    match p name with
    | none => .error ("parameter " ++ String.mk name ++ " not found")
    | some v => replaceHolder rest (replaceFirst query matched (tr name)) (args ++ [v]) tr p

/-- String form of a value, used for `${…}` splices.  Modelled from the
spec: `reflectValueToString` is defined outside the provided source
files; the spec says a `${…}` hit is replaced by the value's string
form. -/
def valueToString : Value → Str
  | .vStr s => s
  | .vBool b => (toString b).data
  | .vInt n => (toString n).data
  | .vUint n => (toString n).data
  | .vFloat x => (toString x.num).data
  | .vList _ => []
  | .vMap _ => []

/-- `TextNode.replaceTextSubstitution`: walk the precomputed `${…}`
matches in order; resolve each name (a miss is an error) and replace
the first occurrence of the matched text with the value's string
form. -/
def replaceTextSubstitution : List (Str × Str) → Str → Param → Except String Str
  | [], query, _ => .ok query
  | (matched, name) :: rest, query, p =>
    match p name with
    | none => .error ("parameter " ++ String.mk name ++ " not found")
    | some v => replaceTextSubstitution rest (replaceFirst query matched (valueToString v)) p

/-- `TextNode.Accept`: if the node has no placeholder and no
substitution matches, return the raw text; otherwise replace
placeholders first, then text substitutions. -/
def textNodeAccept (value : Str) (tr : Translator) (p : Param) :
    Except String (Str × List Value) :=
  if (findPlaceholders value).isEmpty && (findSubs value).isEmpty then .ok (value, [])
  else do
    let (q, args) ← replaceHolder (findPlaceholders value) value [] tr p
    let q2 ← replaceTextSubstitution (findSubs value) q p
    .ok (q2, args)

/-- `ConditionNode.Match`: execute the compiled expression and decide
truthiness by the kind of the resulting value; kinds other than bool,
integer, unsigned, float and string are an evaluation error. -/
def conditionMatch (expr : Param → Except String Value) (p : Param) :
    Except String Bool := do
  let v ← expr p
  match v with
  | .vBool b => .ok b
  | .vInt n => .ok (decide (n ≠ 0))
  | .vUint n => .ok (decide (n ≠ 0))
  | .vFloat x => .ok (decide (x ≠ 0))
  | .vStr s => .ok (decide (s ≠ []))
  | _ => .error "unsupported type"

/-- The dynamic-SQL node tree (the `Node` implementations of node.go
that the claims are about). -/
inductive Node where
  | pureText (s : Str)
  | text (value : Str)
  | cond (expr : Param → Except String Value) (nodes : List Node)
  | whereN (nodes : List Node)
  | trimN (nodes : List Node) (pre : Str) (preOverrides : List Str)
      (suf : Str) (sufOverrides : List Str)
  | foreachN (collection item index openStr closeStr sepStr : Str) (nodes : List Node)

/-- Go's `strings.HasSuffix(q, " ")`. -/
def endsWithSpace (q : Str) : Bool := q.getLast? == some ' '

/-- The child-composition loop of `NodeGroup.Accept` (also the loops of
`WhereNode.Accept` and `SetNode.Accept`, which are textually identical):
append each child's fragment, then a single space when the child is not
the last one, its fragment is non-empty and does not end in a space
character; append each child's args in order; errors abort. -/
def groupLoopWith (acc : Node → Param → Except String (Str × List Value)) (p : Param) :
    List Node → Except String (Str × List Value)
  | [] => .ok ([], [])
  | n :: rest => do
    let (q, a) ← acc n p
    let (qs, as) ← groupLoopWith acc p rest
    let sep : Str := if rest.isEmpty || q.isEmpty || endsWithSpace q then [] else [' ']
    .ok (q ++ sep ++ qs, a ++ as)

/-- The child-composition loop of `TrimNode.Accept`.  It contains two
space-insertion blocks: the first appends a space whenever the fragment
does not end in a space and the child is not the last (even for an
empty fragment), the second additionally requires the fragment to be
non-empty — so a non-empty child is followed by two spaces. -/
def trimLoopWith (acc : Node → Param → Except String (Str × List Value)) (p : Param) :
    List Node → Except String (Str × List Value)
  | [] => .ok ([], [])
  | n :: rest => do
    let (q, a) ← acc n p
    let (qs, as) ← trimLoopWith acc p rest
    let s1 : Str := if endsWithSpace q || rest.isEmpty then [] else [' ']
    let s2 : Str := if rest.isEmpty || q.isEmpty || endsWithSpace q then [] else [' ']
    .ok (q ++ s1 ++ s2 ++ qs, a ++ as)

/-- The per-element child loop of `ForeachNode.acceptSlice` and
`acceptMap`: children's fragments and args are appended with no
separator logic. -/
def bodyLoopWith (acc : Node → Param → Except String (Str × List Value)) (p : Param) :
    List Node → Except String (Str × List Value)
  | [] => .ok ([], [])
  | n :: rest => do
    let (q, a) ← acc n p
    let (qs, as) ← bodyLoopWith acc p rest
    .ok (q ++ qs, a ++ as)

/-- The and/or stripping step of `WhereNode.Accept`: a leading
`and`/`AND` loses three characters, else a leading `or`/`OR` loses
two. -/
def whereStrip (q : Str) : Str :=
  if ("and".data).isPrefixOf q || ("AND".data).isPrefixOf q then q.drop 3
  else if ("or".data).isPrefixOf q || ("OR".data).isPrefixOf q then q.drop 2
  else q

/-- Whitespace characters for `strings.TrimSpace` (ASCII subset of
`unicode.IsSpace`). -/
def isSpaceChar (c : Char) : Bool :=
  c == ' ' || c == '\t' || c == '\n' || c == '\x0b' || c == '\x0c' || c == '\r'

/-- Go's `strings.TrimSpace`: remove whitespace from both ends. -/
def trimSpaceStr (q : Str) : Str :=
  ((q.dropWhile isSpaceChar).reverse.dropWhile isSpaceChar).reverse

/-- Does the query already begin with `where` or `WHERE`? -/
def startsWithWhere (q : Str) : Bool :=
  ("where".data).isPrefixOf q || ("WHERE".data).isPrefixOf q

/-- The post-processing of `WhereNode.Accept` on a non-empty composed
body: strip a leading and/or, trim whitespace, and prepend `WHERE`
unless the text already begins with `where`/`WHERE`. -/
def whereFinish (q : Str) : Str :=
  let q1 := trimSpaceStr (whereStrip q)
  if startsWithWhere q1 then q1
  else if !(([' '] : Str).isPrefixOf q1) then ("WHERE ".data) ++ q1
  else ("WHERE".data) ++ q1

/-- The prefix-overrides loop of `TrimNode.Accept`: strip the first
override that the query starts with, then stop. -/
def stripFirstMatchingPre : List Str → Str → Str
  | [], q => q
  | o :: os, q => if o.isPrefixOf q then q.drop o.length else stripFirstMatchingPre os q

/-- The suffix-overrides loop of `TrimNode.Accept`: strip the first
override that the query ends with, then stop. -/
def stripFirstMatchingSuf : List Str → Str → Str
  | [], q => q
  | o :: os, q =>
    if o.isSuffixOf q then q.take (q.length - o.length) else stripFirstMatchingSuf os q

/-- The scope pushed by `foreach` for one element:
`eval.H{f.Item: item, f.Index: i}` consulted before the enclosing
parameters (a map literal, so when item and index coincide the index
entry wins). -/
def scopedParam (item index : Str) (itemVal idxVal : Value) (p : Param) : Param :=
  fun n => if n = index then some idxVal else if n = item then some itemVal else p n

/-- The element loop of `ForeachNode.acceptSlice`: bind item to the
element and index to its ordinal, render the children, and append the
separator after every element but the last. -/
def sliceGoWith (acc : Node → Param → Except String (Str × List Value))
    (nodes : List Node) (item index sepStr : Str) (p : Param) :
    List Value → Nat → Except String (Str × List Value)
  | [], _ => .ok ([], [])
  | v :: rest, i => do
    let (q, a) ← bodyLoopWith acc (scopedParam item index v (.vInt (Int.ofNat i)) p) nodes
    let (qs, as) ← sliceGoWith acc nodes item index sepStr p rest (i + 1)
    .ok (q ++ (if rest.isEmpty then [] else sepStr) ++ qs, a ++ as)

/-- The key loop of `ForeachNode.acceptMap`: bind item to the mapped
value and index to the key, render the children, and append the
separator after every entry but the last. -/
def mapGoWith (acc : Node → Param → Except String (Str × List Value))
    (nodes : List Node) (item index sepStr : Str) (p : Param) :
    List (Value × Value) → Except String (Str × List Value)
  | [] => .ok ([], [])
  | (k, v) :: rest => do
    let (q, a) ← bodyLoopWith acc (scopedParam item index v k p) nodes
    let (qs, as) ← mapGoWith acc nodes item index sepStr p rest
    .ok (q ++ (if rest.isEmpty then [] else sepStr) ++ qs, a ++ as)

/-- Fuelled render operation, one clause per `Accept` implementation of
node.go.  The fuel only bounds the nesting depth of the tree; it is
instantiated with a sufficient bound by `acceptNode`. -/
def acceptF : Nat → Node → Translator → Param → Except String (Str × List Value)
  | 0, _, _, _ => .error "out of fuel"
  | f + 1, n, tr, p =>
    match n with
    | .pureText s => .ok (s, [])
    | .text value => textNodeAccept value tr p
    | .cond expr nodes => do
      let b ← conditionMatch expr p
      if b then groupLoopWith (fun n' p' => acceptF f n' tr p') p nodes else .ok ([], [])
    | .whereN nodes => do
      let (q, a) ← groupLoopWith (fun n' p' => acceptF f n' tr p') p nodes
      if q.isEmpty then .ok (q, a) else .ok (whereFinish q, a)
    | .trimN nodes pre preOv suf sufOv => do
      let (body, a) ← trimLoopWith (fun n' p' => acceptF f n' tr p') p nodes
      let q2 := stripFirstMatchingPre preOv (pre ++ body)
      let q3 := stripFirstMatchingSuf sufOv q2
      .ok (q3 ++ suf, a)
    | .foreachN coll item idx openS closeS sep nodes =>
      match p item with
      | some _ => .error ("item " ++ String.mk item ++ " already exists")
      | none =>
        match p coll with
        | none => .error ("collection " ++ String.mk coll ++ " not found")
        | some v =>
          match v with
          | .vList es =>
            if es.isEmpty then .ok ([], [])
            else do
              let (body, a) ←
                sliceGoWith (fun n' p' => acceptF f n' tr p') nodes item idx sep p es 0
              .ok (openS ++ body ++ closeS, a)
          | .vMap kvs =>
            if kvs.isEmpty then .ok ([], [])
            else do
              let (body, a) ←
                mapGoWith (fun n' p' => acceptF f n' tr p') nodes item idx sep p kvs
              .ok (openS ++ body ++ closeS, a)
          | _ => .error ("collection " ++ String.mk coll ++ " is not a slice or map")

mutual

/-- Structural size of a node, used to pick a sufficient fuel. -/
def nodeSize : Node → Nat
  | .pureText _ => 1
  | .text _ => 1
  | .cond _ nodes => 1 + nodesSize nodes
  | .whereN nodes => 1 + nodesSize nodes
  | .trimN nodes _ _ _ _ => 1 + nodesSize nodes
  | .foreachN _ _ _ _ _ _ nodes => 1 + nodesSize nodes

/-- Structural size of a node list. -/
def nodesSize : List Node → Nat
  | [] => 0
  | n :: rest => 1 + nodeSize n + nodesSize rest

end

/-- `Accept` of a node: the fuel `1 + nodeSize n` always dominates the
nesting depth of `n`. -/
def acceptNode (n : Node) (tr : Translator) (p : Param) : Except String (Str × List Value) :=
  acceptF (1 + nodeSize n) n tr p

/-- `NodeGroup.Accept`: the composition of a statement's top-level node
list. -/
def groupAccept (nodes : List Node) (tr : Translator) (p : Param) :
    Except String (Str × List Value) :=
  groupLoopWith (fun n p' => acceptNode n tr p') p nodes

/-- The statement-body tag dispatcher `XMLParser.parseTags`: dispatch on
the element name, constructing a node for the recognized tags and
failing with an "unknown tag" parse error for every other name.  The
sub-parsers consume the element's body; here only the name dispatch is
modelled, returning the accepted tag name. -/
def parseTagsDispatch (name : String) : Except String String :=
  match name with
  | "if" => .ok "if"
  | "where" => .ok "where"
  | "trim" => .ok "trim"
  | "foreach" => .ok "foreach"
  | "set" => .ok "set"
  | "include" => .ok "include"
  | _ => .error ("unknown tag: " ++ name)

/-- The tag names `parseTags` dispatches on. -/
def recognizedBodyTags : List String := ["if", "where", "trim", "foreach", "set", "include"]

/-- A token of the streaming XML decoder. -/
inductive XmlTok where
  | startEl (name : String)
  | endEl (name : String)
  | charData (s : String)

/-- A parsed mapper; for the loader claims only the statement table
matters. -/
structure Mapper where
  statements : List (String × String)

/-- The scanning loop of `XMLParser.parseMapperByReader`, with the
nested `parseMapper` call abstracted as `pm` (it consumes the decoder
and yields a mapper and the remaining tokens, or an error).  `acc` is
the named return value `mapper`, which starts out nil (`none`): on a
`mapper` start element the result of `parseMapper` is assigned to it
and — because the `break` only leaves the token-type switch — the loop
keeps consuming tokens; at end of input the function returns the named
`(mapper, err)` pair, whose error half was never assigned, i.e.
`.ok acc` even when `acc` is still `none`. -/
def parseMapperByReaderGo
    (pm : List XmlTok → Except String (Mapper × List XmlTok)) :
    Nat → Option Mapper → List XmlTok → Except String (Option Mapper)
  | _, acc, [] => .ok acc
  | 0, acc, _ => .ok acc
  | fuel + 1, acc, .startEl n :: rest =>
    if n = "mapper" then
      match pm rest with
      | .error e => .error e
      | .ok (m, rest') => parseMapperByReaderGo pm fuel (some m) rest'
    else parseMapperByReaderGo pm fuel acc rest
  | fuel + 1, acc, .endEl _ :: rest => parseMapperByReaderGo pm fuel acc rest
  | fuel + 1, acc, .charData _ :: rest => parseMapperByReaderGo pm fuel acc rest

/-- `XMLParser.parseMapperByReader`: scan the token stream for a
`mapper` start element.  The fuel (one unit per consumed token) only
makes the scanning loop structurally recursive; a decoder stream is
finite and `parseMapper` consumes tokens, so the fuel never runs out
for the streams being modelled. -/
def parseMapperByReader (pm : List XmlTok → Except String (Mapper × List XmlTok))
    (toks : List XmlTok) : Except String (Option Mapper) :=
  parseMapperByReaderGo pm toks.length none toks

/-- Outcome of a Go function call including a nil-pointer-dereference
panic, which is not an `error` value and cannot be handled by the
caller's error checks. -/
inductive GoResult (α : Type) where
  | ok (a : α)
  | err (e : String)
  | panicNilDeref
deriving Repr, DecidableEq

/-- What `XMLParser.parseMappers` does with the mapper returned for one
`mapper` element: on an error it returns it, otherwise it iterates
`mapper.statements` — a field read through the returned pointer, which
panics when the mapper is nil. -/
def parseMappersUse (res : Except String (Option Mapper)) :
    GoResult (List (String × String)) :=
  match res with
  | .error e => .err e
  | .ok none => .panicNilDeref
  | .ok (some m) => .ok m.statements

/-- A symbolic piece of rendered SQL: literal text, or a positional
placeholder token emitted by the translator for a named parameter. -/
inductive Piece where
  | lit (s : Str)
  | ph (name : Str)

/-- Flatten symbolic pieces to concrete SQL under a translator. -/
def flattenPieces (tr : Translator) : List Piece → Str
  | [] => []
  | .lit s :: rest => s ++ flattenPieces tr rest
  | .ph nm :: rest => tr nm ++ flattenPieces tr rest

/-- The names of the placeholder tokens of a piece list, in
left-to-right order of the final SQL. -/
def phNames : List Piece → List Str
  | [] => []
  | .lit _ :: rest => phNames rest
  | .ph nm :: rest => nm :: phNames rest

/-- Characters that can occur in a placeholder match at any position
after the leading `#`. -/
def innerPatChar (c : Char) : Bool :=
  c == '\x7b' || c == ' ' || c == '\x7d' || isNameChar c

/-- A well-behaved translator token: non-empty, free of `#`, and not
starting with a character that could continue a placeholder match
(brace, space, name character).  The usual dialect tokens `?`, `$1`,
`:name` all qualify. -/
def tokOK : Str → Prop
  | [] => False
  | c :: rest => innerPatChar c = false ∧ c ≠ '#' ∧ '#' ∉ rest

/-- A translator all of whose tokens are well behaved. -/
def translatorOK (tr : Translator) : Prop := ∀ nm, tokOK (tr nm)

/-- Node trees made of plain text (with no `${…}` substitution sites)
and conditionals: renders of such trees involve no post-processing that
could delete an emitted placeholder token. -/
inductive Textish : Node → Prop
  | pureText (s : Str) : Textish (.pureText s)
  | text (s : Str) : findSubs s = [] → Textish (.text s)
  | cond (e : Param → Except String Value) (nodes : List Node) :
      (∀ n ∈ nodes, Textish n) → Textish (.cond e nodes)

/-- A full placeholder-pattern match: `#`, `{`, optional spaces, a
non-empty run of name characters, optional spaces, `}`. -/
def IsPat (m nm : Str) : Prop :=
  ∃ sp1 sp2, (∀ c ∈ sp1, c = ' ') ∧ (∀ c ∈ sp2, c = ' ') ∧
    nm ≠ [] ∧ (∀ c ∈ nm, isNameChar c = true) ∧
    m = '#' :: '\x7b' :: (sp1 ++ nm ++ sp2 ++ ['\x7d'])

/-- No placeholder match starts inside `seg` when `seg` is followed by
`tail` (the left-to-right regular-expression scan found no match at any
of these positions). -/
def SegNoMatch (seg tail : Str) : Prop :=
  ∀ o, o < seg.length → tryMatch (seg.drop o ++ tail) = none

/-- Soundness facts for a scanner decomposition: every match is a full
pattern and no match starts inside a segment. -/
def PiecesOK : List (Str × Str × Str) → Prop
  | [] => True
  | (m, nm, seg) :: rest =>
    IsPat m nm ∧ SegNoMatch seg ((rest.map fun x => x.1 ++ x.2.2).flatten) ∧ PiecesOK rest

/-- The string spanned by the matches and trailing segments of a
scanner decomposition. -/
def tailStr (rest : List (Str × Str × Str)) : Str :=
  (rest.map fun x => x.1 ++ x.2.2).flatten

/-- No full placeholder-pattern occurrence starts strictly inside the
already-processed prefix of the working string. -/
def SafePre (pre tail : Str) : Prop :=
  ∀ j, j < pre.length → ∀ m nm, IsPat m nm → ¬ m.isPrefixOf ((pre ++ tail).drop j)

/-- Truthiness of a condition value as the specification words it:
boolean is itself, numbers are non-zero, strings are non-empty, any
other kind is an evaluation error (`none`). -/
def specTruthiness : Value → Option Bool
  | .vBool b => some b
  | .vInt n => some (decide (n ≠ 0))
  | .vUint n => some (decide (n ≠ 0))
  | .vFloat x => some (decide (x ≠ 0))
  | .vStr s => some (decide (s ≠ []))
  | .vList _ => none
  | .vMap _ => none

/-- The `WhereNode` post-processing as amended: an empty composed body
passes through (with its args); otherwise a leading and/AND loses three
characters or a leading or/OR loses two, whitespace is trimmed from
both ends, and `WHERE ` is prepended unless the remaining text begins
with `where`/`WHERE`. -/
def specWherePost (q : Str) : Str :=
  if q = [] then []
  else
    let t := trimSpaceStr (whereStrip q)
    if startsWithWhere t then t else ("WHERE ".data) ++ t

/-- Composition of child fragments as `NodeGroup.Accept` (and the
`WhereNode`/`SetNode` loops) performs it: after each fragment that is
non-empty, does not end in a space character and is not in the last
position, one space is inserted — regardless of the following
fragments. -/
def specGroupSql : List Str → Str
  | [] => []
  | [q] => q
  | q :: rest =>
    q ++ (if q.isEmpty || endsWithSpace q then [] else [' ']) ++ specGroupSql rest

/-- Composition of child fragments as `TrimNode.Accept` performs it:
after each non-last fragment that does not end in a space one space is
inserted (even for an empty fragment), and a second one when the
fragment is also non-empty. -/
def specTrimSql : List Str → Str
  | [] => []
  | [q] => q
  | q :: rest =>
    q ++ (if endsWithSpace q then [] else [' ']) ++
      (if q.isEmpty || endsWithSpace q then [] else [' ']) ++ specTrimSql rest

theorem nodeSize_pos (n : Node) : 1 ≤ nodeSize n := by
  cases n <;> simp [nodeSize]

theorem nodeSize_lt_of_mem {n : Node} {l : List Node} (h : n ∈ l) :
    nodeSize n < 1 + nodesSize l := by
  induction l with
  | nil => cases h
  | cons x rest ih =>
    rcases List.mem_cons.mp h with h1 | h2
    · subst h1; simp [nodesSize]; omega
    · have := ih h2
      simp [nodesSize] at *
      omega

theorem groupLoopWith_congr {acc₁ acc₂ : Node → Param → Except String (Str × List Value)}
    {l : List Node} (p : Param) (h : ∀ n ∈ l, ∀ p', acc₁ n p' = acc₂ n p') :
    groupLoopWith acc₁ p l = groupLoopWith acc₂ p l := by
  induction l with
  | nil => rfl
  | cons n rest ih =>
    simp only [groupLoopWith]
    rw [h n (List.mem_cons_self n rest) p,
      ih (fun n' hn' p' => h n' (List.mem_cons_of_mem n hn') p')]

theorem trimLoopWith_congr {acc₁ acc₂ : Node → Param → Except String (Str × List Value)}
    {l : List Node} (p : Param) (h : ∀ n ∈ l, ∀ p', acc₁ n p' = acc₂ n p') :
    trimLoopWith acc₁ p l = trimLoopWith acc₂ p l := by
  induction l with
  | nil => rfl
  | cons n rest ih =>
    simp only [trimLoopWith]
    rw [h n (List.mem_cons_self n rest) p,
      ih (fun n' hn' p' => h n' (List.mem_cons_of_mem n hn') p')]

theorem bodyLoopWith_congr {acc₁ acc₂ : Node → Param → Except String (Str × List Value)}
    {l : List Node} (p : Param) (h : ∀ n ∈ l, ∀ p', acc₁ n p' = acc₂ n p') :
    bodyLoopWith acc₁ p l = bodyLoopWith acc₂ p l := by
  induction l with
  | nil => rfl
  | cons n rest ih =>
    simp only [bodyLoopWith]
    rw [h n (List.mem_cons_self n rest) p,
      ih (fun n' hn' p' => h n' (List.mem_cons_of_mem n hn') p')]

theorem sliceGoWith_congr {acc₁ acc₂ : Node → Param → Except String (Str × List Value)}
    {nodes : List Node} (item index sepStr : Str) (p : Param)
    (h : ∀ n ∈ nodes, ∀ p', acc₁ n p' = acc₂ n p') :
    ∀ es i, sliceGoWith acc₁ nodes item index sepStr p es i =
      sliceGoWith acc₂ nodes item index sepStr p es i := by
  intro es
  induction es with
  | nil => intro i; rfl
  | cons v rest ih =>
    intro i
    simp only [sliceGoWith]
    rw [bodyLoopWith_congr _ h, ih (i + 1)]

theorem mapGoWith_congr {acc₁ acc₂ : Node → Param → Except String (Str × List Value)}
    {nodes : List Node} (item index sepStr : Str) (p : Param)
    (h : ∀ n ∈ nodes, ∀ p', acc₁ n p' = acc₂ n p') :
    ∀ kvs, mapGoWith acc₁ nodes item index sepStr p kvs =
      mapGoWith acc₂ nodes item index sepStr p kvs := by
  intro kvs
  induction kvs with
  | nil => rfl
  | cons kv rest ih =>
    obtain ⟨k, v⟩ := kv
    simp only [mapGoWith]
    rw [bodyLoopWith_congr _ h, ih]

theorem acceptF_congr (tr : Translator) :
    ∀ k n, nodeSize n ≤ k → ∀ f g p, nodeSize n < f → nodeSize n < g →
      acceptF f n tr p = acceptF g n tr p := by
  intro k
  induction k with
  | zero => intro n hn; have := nodeSize_pos n; omega
  | succ k ih =>
    intro n hn f g p hf hg
    obtain ⟨f', rfl⟩ : ∃ f', f = f' + 1 := ⟨f - 1, by have := nodeSize_pos n; omega⟩
    obtain ⟨g', rfl⟩ : ∃ g', g = g' + 1 := ⟨g - 1, by have := nodeSize_pos n; omega⟩
    have hmem : ∀ nodes : List Node, nodeSize n = 1 + nodesSize nodes →
        ∀ n' ∈ nodes, ∀ p', acceptF f' n' tr p' = acceptF g' n' tr p' := by
      intro nodes hsz n' hn' p'
      have hlt : nodeSize n' < nodeSize n := hsz ▸ nodeSize_lt_of_mem hn'
      exact ih n' (by omega) f' g' p' (by omega) (by omega)
    cases n with
    | pureText s => rfl
    | text s => rfl
    | cond expr nodes =>
      simp only [acceptF]
      rw [groupLoopWith_congr p (hmem nodes (by simp [nodeSize]))]
    | whereN nodes =>
      simp only [acceptF]
      rw [groupLoopWith_congr p (hmem nodes (by simp [nodeSize]))]
    | trimN nodes pre preOv suf sufOv =>
      simp only [acceptF]
      rw [trimLoopWith_congr p (hmem nodes (by simp [nodeSize]))]
    | foreachN coll item idx openS closeS sep nodes =>
      simp only [acceptF]
      rw [show (fun n' p' => acceptF f' n' tr p') = (fun n' p' => acceptF f' n' tr p') from rfl]
      cases p item with
      | some v => rfl
      | none =>
        cases p coll with
        | none => rfl
        | some v =>
          cases v with
          | vList es =>
            simp only
            rw [sliceGoWith_congr item idx sep p (hmem nodes (by simp [nodeSize]))]
          | vMap kvs =>
            simp only
            rw [mapGoWith_congr item idx sep p (hmem nodes (by simp [nodeSize]))]
          | vBool b => rfl
          | vInt n => rfl
          | vUint n => rfl
          | vFloat x => rfl
          | vStr s => rfl

theorem acceptF_eq_acceptNode {f : Nat} {n : Node} (tr : Translator) (p : Param)
    (h : nodeSize n < f) : acceptF f n tr p = acceptNode n tr p :=
  acceptF_congr tr (nodeSize n) n le_rfl f (1 + nodeSize n) p h (by omega)

theorem groupLoopWith_fuel_eq {f : Nat} {nodes : List Node} (tr : Translator) (p : Param)
    (h : ∀ n ∈ nodes, nodeSize n < f) :
    groupLoopWith (fun n' p' => acceptF f n' tr p') p nodes = groupAccept nodes tr p :=
  groupLoopWith_congr p fun n hn p' => acceptF_eq_acceptNode tr p' (h n hn)

/-- `WhereNode.Accept` in terms of the composed children: compose with
the shared loop, pass an empty query through, post-process otherwise. -/
theorem acceptNode_whereN (nodes : List Node) (tr : Translator) (p : Param) :
    acceptNode (.whereN nodes) tr p =
      (do
        let (q, a) ← groupAccept nodes tr p
        if q.isEmpty then pure (q, a) else pure (whereFinish q, a)) := by
  show acceptF (1 + nodeSize (.whereN nodes)) (.whereN nodes) tr p = _
  rw [show 1 + nodeSize (Node.whereN nodes) = (nodeSize (Node.whereN nodes)) + 1 by omega]
  simp only [acceptF]
  rw [groupLoopWith_fuel_eq tr p
    (fun n hn => by simpa [nodeSize] using nodeSize_lt_of_mem hn)]
  rfl

/-- `ConditionNode.Accept` in terms of the composed children. -/
theorem acceptNode_cond (expr : Param → Except String Value) (nodes : List Node)
    (tr : Translator) (p : Param) :
    acceptNode (.cond expr nodes) tr p =
      (do
        let b ← conditionMatch expr p
        if b then groupAccept nodes tr p else pure ([], [])) := by
  show acceptF (1 + nodeSize (.cond expr nodes)) (.cond expr nodes) tr p = _
  rw [show 1 + nodeSize (Node.cond expr nodes) = (nodeSize (Node.cond expr nodes)) + 1 by omega]
  simp only [acceptF]
  rw [groupLoopWith_fuel_eq tr p
    (fun n hn => by simpa [nodeSize] using nodeSize_lt_of_mem hn)]
  rfl

/-- The `TrimNode.Accept` child loop at top level. -/
def trimAccept (nodes : List Node) (tr : Translator) (p : Param) :
    Except String (Str × List Value) :=
  trimLoopWith (fun n p' => acceptNode n tr p') p nodes

theorem trimLoopWith_fuel_eq {f : Nat} {nodes : List Node} (tr : Translator) (p : Param)
    (h : ∀ n ∈ nodes, nodeSize n < f) :
    trimLoopWith (fun n' p' => acceptF f n' tr p') p nodes = trimAccept nodes tr p :=
  trimLoopWith_congr p fun n hn p' => acceptF_eq_acceptNode tr p' (h n hn)

/-- `TrimNode.Accept` in terms of the composed children: the attribute
`Prefix` is written into the builder before the children, the override
loops run on the prefixed string, and `Suffix` is appended last. -/
theorem acceptNode_trimN (nodes : List Node) (pre : Str) (preOv : List Str)
    (suf : Str) (sufOv : List Str) (tr : Translator) (p : Param) :
    acceptNode (.trimN nodes pre preOv suf sufOv) tr p =
      (do
        let (body, a) ← trimAccept nodes tr p
        pure (stripFirstMatchingSuf sufOv (stripFirstMatchingPre preOv (pre ++ body)) ++ suf,
          a)) := by
  show acceptF (1 + nodeSize (.trimN nodes pre preOv suf sufOv)) _ tr p = _
  rw [show 1 + nodeSize (Node.trimN nodes pre preOv suf sufOv) =
    (nodeSize (Node.trimN nodes pre preOv suf sufOv)) + 1 by omega]
  simp only [acceptF]
  rw [trimLoopWith_fuel_eq tr p
    (fun n hn => by simpa [nodeSize] using nodeSize_lt_of_mem hn)]
  rfl

theorem isPrefixOf_iff_ex : ∀ l₁ l₂ : Str, l₁.isPrefixOf l₂ = true ↔ ∃ t, l₂ = l₁ ++ t := by
  intro l₁
  induction l₁ with
  | nil =>
    intro l₂
    simp [List.isPrefixOf]
  | cons c r ih =>
    intro l₂
    cases l₂ with
    | nil => simp [List.isPrefixOf]
    | cons d r₂ =>
      simp only [List.isPrefixOf, Bool.and_eq_true, beq_iff_eq, ih]
      constructor
      · rintro ⟨rfl, t, rfl⟩
        exact ⟨t, rfl⟩
      · rintro ⟨t, h⟩
        injection h with h1 h2
        exact ⟨h1.symm, t, h2⟩

theorem trimSpaceStr_head (s : Str) :
    ∀ c t, trimSpaceStr s = c :: t → isSpaceChar c = false := by
  intro c t h
  have hpre : trimSpaceStr s <+: s.dropWhile isSpaceChar := by
    have hsuf : (s.dropWhile isSpaceChar).reverse.dropWhile isSpaceChar <:+
        (s.dropWhile isSpaceChar).reverse := List.dropWhile_suffix _
    have := hsuf.reverse
    simpa [trimSpaceStr] using this
  obtain ⟨r, hr⟩ := hpre
  have hhead := List.head?_dropWhile_not isSpaceChar s
  rw [← hr, h] at hhead
  simpa using hhead

theorem whereFinish_eq_spec (q : Str) (hq : q ≠ []) : whereFinish q = specWherePost q := by
  unfold whereFinish specWherePost
  rw [if_neg hq]
  cases hsw : startsWithWhere (trimSpaceStr (whereStrip q)) with
  | true => simp [hsw]
  | false =>
    simp only [hsw, if_false, Bool.false_eq_true]
    have hnp : ([' '] : Str).isPrefixOf (trimSpaceStr (whereStrip q)) = false := by
      cases ht : trimSpaceStr (whereStrip q) with
      | nil => rfl
      | cons c t' =>
        have hc := trimSpaceStr_head (whereStrip q) c t' ht
        have : ¬ c = ' ' := by
          intro hcc
          rw [hcc] at hc
          simp [isSpaceChar] at hc
        simp [List.isPrefixOf, this]
        intro hcc
        exact absurd hcc.symm this
    simp [hnp]

/-- The standard positional translator emitting `?` for every name. -/
def qMarkTranslator : Translator := fun _ => ['?']

/-- An empty parameter object. -/
def noParam : Param := fun _ => none

/-- A parameter object binding only `x` to the integer 1. -/
def xOneParam : Param := fun n => if n = ['x'] then some (.vInt 1) else none

/-- The text `#{x}` as a character list. -/
def phXStr : Str := ['#', '\x7b', 'x', '\x7d']

/-- A parameter object that defines the index name `i` and the
collection `ids`. -/
def idxDefinedParam : Param := fun n =>
  if n = ['i'] then some (.vInt 0)
  else if n = "ids".data then some (.vList [.vInt 7]) else none

/-- C2: evaluation of `TrimNode.Accept` at the failing input: a trim
node with `Prefix = "WHERE "` and `PrefixOverrides = ["AND "]` over a
child rendering `AND x`.  The code writes the prefix into the builder
before running the override loop, so the override is compared against
`WHERE AND x`, never matches, and the leading `AND ` survives; the spec
says the override is stripped from the children's body before the
prefix is prepended, which would give `WHERE x`. -/
theorem c2_trim_code_bug_eval :
    acceptNode (.trimN [.pureText "AND x".data] "WHERE ".data ["AND ".data] [] [])
      qMarkTranslator noParam = .ok ("WHERE AND x".data, []) := rfl

/-- C3 counterexample: a `TrimNode` over two non-empty children `a` and
`b` renders `a  b` with two spaces between them, refuting the claim
that container nodes insert exactly one space between adjacent
non-empty children with no double spaces. -/
theorem c3_trim_double_space_counterexample :
    acceptNode (.trimN [.pureText ['a'], .pureText ['b']] [] [] [] [])
      qMarkTranslator noParam = .ok (['a', ' ', ' ', 'b'], []) := rfl

theorem exBindOk {α β : Type} (a : α) (k : α → Except String β) :
    (do let x ← Except.ok a; k x) = k a := rfl

/-- C3 as amended: if every child of a container renders successfully,
`NodeGroup.Accept` (the loop also used by `WhereNode` and `SetNode`)
produces the fragments joined with one space inserted after every
fragment that is non-empty, does not end in a space character and is
not in the last position — regardless of the following fragments, so a
trailing space can remain and a space is inserted even when the
fragment ends in other whitespace — while `TrimNode.Accept` inserts a
space after every non-last fragment not ending in a space and a second
one when that fragment is non-empty; each child's args are appended in
order. -/
theorem c3_container_composition (nodes : List Node) (tr : Translator) (p : Param)
    (results : List (Str × List Value))
    (h : List.Forall₂ (fun n r => acceptNode n tr p = .ok r) nodes results) :
    groupAccept nodes tr p =
      .ok (specGroupSql (results.map Prod.fst), (results.map Prod.snd).flatten) ∧
    trimAccept nodes tr p =
      .ok (specTrimSql (results.map Prod.fst), (results.map Prod.snd).flatten) := by
  induction h with
  | nil => exact ⟨rfl, rfl⟩
  | @cons n r nodes' results' hr hrest ih =>
    obtain ⟨ihg, iht⟩ := ih
    have hlen : nodes'.isEmpty = results'.isEmpty := by
      cases hrest <;> rfl
    constructor
    · show groupLoopWith _ p (n :: nodes') = _
      simp only [groupLoopWith]
      rw [hr]
      rw [show groupLoopWith (fun n' p' => acceptNode n' tr p') p nodes' =
        groupAccept nodes' tr p from rfl, ihg]
      simp only [exBindOk]
      cases results' with
      | nil =>
        cases hrest
        simp [specGroupSql]
      | cons r2 rest2 =>
        cases nodes' with
        | nil => cases hrest
        | cons n2 nrest2 =>
          simp only [List.map_cons, specGroupSql, List.isEmpty_cons, Bool.false_eq_true,
            false_or]
          by_cases hqe : r.1 = [] <;> cases hsp : endsWithSpace r.1 <;>
            simp [hqe, hsp, List.append_assoc]
    · show trimLoopWith _ p (n :: nodes') = _
      simp only [trimLoopWith]
      rw [hr]
      rw [show trimLoopWith (fun n' p' => acceptNode n' tr p') p nodes' =
        trimAccept nodes' tr p from rfl, iht]
      simp only [exBindOk]
      cases results' with
      | nil =>
        cases hrest
        simp [specTrimSql]
      | cons r2 rest2 =>
        cases nodes' with
        | nil => cases hrest
        | cons n2 nrest2 =>
          simp only [List.map_cons, specTrimSql, List.isEmpty_cons, Bool.false_eq_true,
            false_or]
          by_cases hqe : r.1 = [] <;> cases hsp : endsWithSpace r.1 <;>
            simp [hqe, hsp, List.append_assoc]

/-- C3 witness: instantiation of the composition characterization for
two concrete text children. -/
theorem c3_container_composition_witness :
    groupAccept [.pureText ['a'], .pureText ['b']] qMarkTranslator noParam =
      .ok (['a', ' ', 'b'], []) ∧
    trimAccept [.pureText ['a'], .pureText ['b']] qMarkTranslator noParam =
      .ok (['a', ' ', ' ', 'b'], []) := by
  have h := c3_container_composition [.pureText ['a'], .pureText ['b']]
    qMarkTranslator noParam [(['a'], []), (['b'], [])]
    (by constructor; · rfl
        constructor; · rfl
        constructor)
  exact h

/-- C4 counterexample: a `WhereNode` whose children compose to the
empty string returns the accumulated child arguments, not an empty
argument list — here the child is a trim node whose suffix override
`?` swallows the placeholder token emitted for `#{x}`, leaving an empty
query with one argument. -/
theorem c4_empty_where_keeps_args :
    acceptNode (.whereN [.trimN [.text phXStr] [] [] [] [['?']]])
      qMarkTranslator xOneParam = .ok ([], [.vInt 1]) := rfl

/-- C4 as amended: for every `WhereNode` render whose children compose
to `q` with args `a`, the result is `q` post-processed as follows with
the args `a` passed through unchanged (also when `q` is empty): if `q`
is empty the query is empty; otherwise a leading `and`/`AND` loses
three characters or a leading `or`/`OR` loses two, whitespace is
trimmed from both ends, and `WHERE ` is prepended unless the remaining
text begins with `where`/`WHERE`. -/
theorem c4_where_postprocessing (nodes : List Node) (tr : Translator) (p : Param)
    (q : Str) (a : List Value) (h : groupAccept nodes tr p = .ok (q, a)) :
    acceptNode (.whereN nodes) tr p = .ok (specWherePost q, a) := by
  rw [acceptNode_whereN, h]
  simp only [exBindOk]
  cases hq : q with
  | nil => rfl
  | cons c t =>
    have hne : q ≠ [] := by rw [hq]; simp
    rw [← hq]
    have hqe : q.isEmpty = false := by rw [hq]; rfl
    simp only [hqe, Bool.false_eq_true, if_false]
    rw [whereFinish_eq_spec q hne]
    rfl

/-- C4 witness: a where node over the single text `AND x` becomes
`WHERE x` with no args. -/
theorem c4_where_postprocessing_witness :
    acceptNode (.whereN [.pureText "AND x".data]) qMarkTranslator noParam =
      .ok ("WHERE x".data, []) :=
  c4_where_postprocessing [.pureText "AND x".data] qMarkTranslator noParam
    "AND x".data [] rfl

/-- C5: if the children of a `WhereNode` compose to a non-empty body
that, after the and/or stripping and whitespace trimming steps, already
begins with `where` or `WHERE`, the render returns exactly that body:
the single leading WHERE is kept and no second WHERE is prepended. -/
theorem c5_where_idempotent (nodes : List Node) (tr : Translator) (p : Param)
    (q : Str) (a : List Value) (h : groupAccept nodes tr p = .ok (q, a)) (hq : q ≠ [])
    (hw : startsWithWhere (trimSpaceStr (whereStrip q)) = true) :
    acceptNode (.whereN nodes) tr p = .ok (trimSpaceStr (whereStrip q), a) := by
  rw [acceptNode_whereN, h]
  simp only [exBindOk]
  have hqe : q.isEmpty = false := by
    cases q with
    | nil => exact absurd rfl hq
    | cons _ _ => rfl
  simp only [hqe, Bool.false_eq_true, if_false]
  show Except.ok (whereFinish q, a) = _
  unfold whereFinish
  rw [if_pos hw]

/-- C5 witness: a where node whose body already reads `WHERE id = 1`
renders it unchanged. -/
theorem c5_where_idempotent_witness :
    acceptNode (.whereN [.pureText "WHERE id = 1".data]) qMarkTranslator noParam =
      .ok ("WHERE id = 1".data, []) :=
  c5_where_idempotent [.pureText "WHERE id = 1".data] qMarkTranslator noParam
    "WHERE id = 1".data [] rfl (by simp) rfl

/-- C6 counterexample: a foreach whose index name `i` is already
defined in the enclosing scope renders successfully — the code checks
only the item name, so no error is raised and SQL and arguments are
produced. -/
theorem c6_index_name_not_checked :
    acceptNode (.foreachN "ids".data ['x'] ['i'] ['('] [')'] [','] [.text phXStr])
      qMarkTranslator idxDefinedParam = .ok ("(?)".data, [.vInt 7]) := rfl

/-- C6 as amended: only the item name is checked: whenever the
enclosing scope already defines the foreach's item name, the render
aborts with the "item already exists" error (and hence produces no SQL
and no arguments); a pre-defined index name is not checked and does not
abort the render. -/
theorem c6_item_already_exists_error (coll item idx openS closeS sep : Str)
    (nodes : List Node) (tr : Translator) (p : Param) (v : Value)
    (h : p item = some v) :
    acceptNode (.foreachN coll item idx openS closeS sep nodes) tr p =
      .error ("item " ++ String.mk item ++ " already exists") := by
  show acceptF (1 + nodeSize (.foreachN coll item idx openS closeS sep nodes)) _ tr p = _
  rw [show 1 + nodeSize (Node.foreachN coll item idx openS closeS sep nodes) =
    (nodeSize (Node.foreachN coll item idx openS closeS sep nodes)) + 1 by omega]
  simp only [acceptF]
  rw [h]

/-- C6 witness: the item-name check fires on a concrete scope that
already binds `x`. -/
theorem c6_item_already_exists_error_witness :
    acceptNode (.foreachN "ids".data ['x'] [] ['('] [')'] [','] [.text phXStr])
      qMarkTranslator xOneParam = .error "item x already exists" :=
  c6_item_already_exists_error "ids".data ['x'] [] ['('] [')'] [','] [.text phXStr]
    qMarkTranslator xOneParam (.vInt 1) rfl

/-- C7: a foreach whose resolved collection is an empty slice or an
empty map renders to the empty string with no arguments, emitting
neither open nor close nor any separator. -/
theorem c7_empty_foreach_collapse (coll item idx openS closeS sep : Str)
    (nodes : List Node) (tr : Translator) (p : Param) (hitem : p item = none)
    (hcoll : p coll = some (.vList []) ∨ p coll = some (.vMap [])) :
    acceptNode (.foreachN coll item idx openS closeS sep nodes) tr p = .ok ([], []) := by
  show acceptF (1 + nodeSize (.foreachN coll item idx openS closeS sep nodes)) _ tr p = _
  rw [show 1 + nodeSize (Node.foreachN coll item idx openS closeS sep nodes) =
    (nodeSize (Node.foreachN coll item idx openS closeS sep nodes)) + 1 by omega]
  simp only [acceptF]
  rw [hitem]
  rcases hcoll with h | h <;> rw [h] <;> rfl

/-- C7 witness: a foreach over an empty slice with non-trivial open,
close and separator attributes renders to empty output. -/
theorem c7_empty_foreach_collapse_witness :
    acceptNode (.foreachN "ids".data ['x'] [] ['('] [')'] [','] [.text phXStr])
      qMarkTranslator (fun n => if n = "ids".data then some (.vList []) else none) =
      .ok ([], []) :=
  c7_empty_foreach_collapse "ids".data ['x'] [] ['('] [')'] [','] [.text phXStr]
    qMarkTranslator _ rfl (Or.inl rfl)

/-- C8 counterexample: the body tag dispatcher rejects `choose` with an
"unknown tag" parse error, although the claim lists it among the
recognized tags. -/
theorem c8_choose_unknown_tag :
    parseTagsDispatch "choose" = .error "unknown tag: choose" := rfl

/-- C8 as amended: the tags recognized inside statement and fragment
bodies are exactly `if`, `where`, `trim`, `foreach`, `set` and
`include`; every other element name — including `choose`, `when`,
`otherwise` and `sql` — is an "unknown tag" parse error. -/
theorem c8_recognized_tags (name : String) :
    (name ∈ recognizedBodyTags → parseTagsDispatch name = .ok name) ∧
    (name ∉ recognizedBodyTags → parseTagsDispatch name = .error ("unknown tag: " ++ name)) := by
  constructor
  · intro h
    simp only [recognizedBodyTags, List.mem_cons, List.mem_singleton] at h
    rcases h with rfl | rfl | rfl | rfl | rfl | rfl | h
    · rfl
    · rfl
    · rfl
    · rfl
    · rfl
    · rfl
    · cases h
  · intro h
    unfold parseTagsDispatch
    split <;> simp_all [recognizedBodyTags]

/-- C8 witness: instantiation of the dispatch characterization at a
recognized and an unrecognized tag name. -/
theorem c8_recognized_tags_witness :
    ("if" ∈ recognizedBodyTags ∧ parseTagsDispatch "if" = .ok "if") ∧
    ("when" ∉ recognizedBodyTags ∧
      parseTagsDispatch "when" = .error ("unknown tag: " ++ "when")) :=
  ⟨⟨by decide, (c8_recognized_tags "if").1 (by decide)⟩,
    ⟨by decide, (c8_recognized_tags "when").2 (by decide)⟩⟩

/-- C9: the condition match result is the truthiness of the evaluated
value exactly as the claim states it: a boolean is itself, integers,
unsigned integers and floats are true iff non-zero, strings are true
iff non-empty, and every other kind is an evaluation error instead of a
truth value. -/
theorem c9_condition_truthiness (expr : Param → Except String Value) (p : Param)
    (v : Value) (h : expr p = .ok v) :
    conditionMatch expr p =
      (match specTruthiness v with
       | some b => .ok b
       | none => .error "unsupported type") := by
  unfold conditionMatch
  rw [h]
  cases v <;> rfl

/-- C9 witness: a non-zero integer is truthy. -/
theorem c9_condition_truthiness_witness :
    conditionMatch (fun _ => .ok (.vInt 5)) noParam = .ok true := by
  have h := c9_condition_truthiness (fun _ => .ok (.vInt 5)) noParam (.vInt 5) rfl
  simpa using h

/-- A stand-in for the nested `parseMapper` call; the failing input
contains no `mapper` element, so it is never invoked. -/
def pmUnreachable : List XmlTok → Except String (Mapper × List XmlTok) :=
  fun _ => .error "unreachable"

/-- C10: evaluation at the failing input.  For an external mapper
document with no `mapper` element, `parseMapperByReader` returns a nil
mapper together with a nil error, and `parseMappers` then dereferences
the nil mapper (reading `mapper.statements`), which panics instead of
surfacing an error. -/
theorem c10_nil_mapper_nil_error_panic :
    parseMapperByReader pmUnreachable [] = .ok none ∧
    parseMappersUse (parseMapperByReader pmUnreachable []) = .panicNilDeref :=
  ⟨rfl, rfl⟩

theorem forall₂Append {α β : Type} {R : α → β → Prop} {a c : List α} {b d : List β}
    (h1 : List.Forall₂ R a b) (h2 : List.Forall₂ R c d) :
    List.Forall₂ R (a ++ c) (b ++ d) := by
  induction h1 with
  | nil => exact h2
  | cons hx hrest ih => exact List.Forall₂.cons hx ih

theorem isPrefixOf_append_self (l t : Str) : l.isPrefixOf (l ++ t) = true :=
  (isPrefixOf_iff_ex l (l ++ t)).mpr ⟨t, rfl⟩

theorem isPrefixOf_append_short {m d x : Str} (h : m.isPrefixOf (d ++ x) = true)
    (hlen : m.length ≤ d.length) : m.isPrefixOf d = true := by
  obtain ⟨t, ht⟩ := (isPrefixOf_iff_ex m (d ++ x)).mp h
  have hm : m = d.take m.length := by
    have h1 : (d ++ x).take m.length = d.take m.length :=
      List.take_append_of_le_length hlen
    rw [ht] at h1
    rw [← h1, List.take_left]
  exact (isPrefixOf_iff_ex m d).mpr ⟨d.drop m.length, by
    conv_lhs => rw [← List.take_append_drop m.length d]
    rw [← hm]⟩

theorem isPrefixOf_extend {m d : Str} (h : m.isPrefixOf d = true) (y : Str) :
    m.isPrefixOf (d ++ y) = true := by
  obtain ⟨t, rfl⟩ := (isPrefixOf_iff_ex m d).mp h
  exact (isPrefixOf_iff_ex m (m ++ t ++ y)).mpr ⟨t ++ y, by simp⟩

theorem isPrefixOf_append_long {m d x : Str} (h : m.isPrefixOf (d ++ x) = true)
    (hlen : d.length < m.length) :
    ∃ e, e ≠ [] ∧ m = d ++ e ∧ e.isPrefixOf x = true := by
  obtain ⟨t, ht⟩ := (isPrefixOf_iff_ex m (d ++ x)).mp h
  have hd : d = m.take d.length := by
    have h1 : (m ++ t).take d.length = m.take d.length :=
      List.take_append_of_le_length (Nat.le_of_lt hlen)
    rw [← ht] at h1
    rw [← h1, List.take_left]
  refine ⟨m.drop d.length, ?_, ?_, ?_⟩
  · intro he
    have := congrArg List.length he
    simp at this
    omega
  · conv_lhs => rw [← List.take_append_drop d.length m, ← hd]
  · have hx : x = m.drop d.length ++ t := by
      have h2 : (d ++ x).drop d.length = x := List.drop_left d x
      rw [ht] at h2
      have h3 : (m ++ t).drop d.length = m.drop d.length ++ t := by
        rw [List.drop_append_eq_append_drop, Nat.sub_eq_zero_of_le (Nat.le_of_lt hlen),
          List.drop_zero]
      rw [h3] at h2
      exact h2.symm
    rw [hx]
    exact isPrefixOf_append_self _ _

theorem takeWhile_dropWhile_exact (p : Char → Bool) (l₁ l₂ : Str)
    (h1 : ∀ c ∈ l₁, p c = true)
    (h2 : ∀ c, l₂.head? = some c → p c = false) :
    (l₁ ++ l₂).takeWhile p = l₁ ∧ (l₁ ++ l₂).dropWhile p = l₂ := by
  induction l₁ with
  | nil =>
    simp only [List.nil_append]
    cases l₂ with
    | nil => exact ⟨rfl, rfl⟩
    | cons c t =>
      have := h2 c rfl
      constructor
      · simp [List.takeWhile_cons, this]
      · simp [List.dropWhile_cons, this]
  | cons c t ih =>
    have hc : p c = true := h1 c (List.mem_cons_self c t)
    obtain ⟨iht, ihd⟩ := ih (fun c' hc' => h1 c' (List.mem_cons_of_mem c hc'))
    constructor
    · simp [List.takeWhile_cons, hc, iht]
    · simp [List.dropWhile_cons, hc, ihd]

theorem mem_takeWhile_pred {p : Char → Bool} {l : Str} {c : Char}
    (h : c ∈ l.takeWhile p) : p c = true := by
  induction l with
  | nil => cases h
  | cons d t ih =>
    by_cases hd : p d
    · rw [List.takeWhile_cons_of_pos hd] at h
      rcases List.mem_cons.mp h with rfl | h2
      · exact hd
      · exact ih h2
    · rw [List.takeWhile_cons_of_neg hd] at h
      cases h

theorem tryMatchAfterOpen_some {lead : Char} {t m nm r : Str}
    (h : tryMatchAfterOpen lead t = some (m, nm, r)) :
    ∃ sp1 sp2, (∀ c ∈ sp1, c = ' ') ∧ (∀ c ∈ sp2, c = ' ') ∧
      nm ≠ [] ∧ (∀ c ∈ nm, isNameChar c = true) ∧
      m = lead :: '\x7b' :: (sp1 ++ nm ++ sp2 ++ ['\x7d']) ∧
      t = sp1 ++ nm ++ sp2 ++ '\x7d' :: r := by
  simp only [tryMatchAfterOpen] at h
  split at h
  · cases h
  · split at h
    case _ =>
      rename_i hr3eq
      have hemp : ¬ ((t.dropWhile (fun c => c == ' ')).takeWhile isNameChar).isEmpty = true := by
        assumption
      injection h with h1
      injection h1 with hm h2
      injection h2 with hnm hr
      subst hm
      subst hnm
      subst hr
      refine ⟨t.takeWhile (fun c => c == ' '),
        ((t.dropWhile (fun c => c == ' ')).dropWhile isNameChar).takeWhile (fun c => c == ' '),
        ?_, ?_, ?_, ?_, rfl, ?_⟩
      · intro c hc
        have := mem_takeWhile_pred hc
        simpa using this
      · intro c hc
        have := mem_takeWhile_pred hc
        simpa using this
      · intro he
        rw [he] at hemp
        exact hemp rfl
      · intro c hc
        exact mem_takeWhile_pred hc
      ·
        have e1 : t = t.takeWhile (fun c => c == ' ') ++ t.dropWhile (fun c => c == ' ') :=
          (List.takeWhile_append_dropWhile _ _).symm
        have e2 : t.dropWhile (fun c => c == ' ') =
            (t.dropWhile (fun c => c == ' ')).takeWhile isNameChar ++
            (t.dropWhile (fun c => c == ' ')).dropWhile isNameChar :=
          (List.takeWhile_append_dropWhile _ _).symm
        have e3 : (t.dropWhile (fun c => c == ' ')).dropWhile isNameChar =
            ((t.dropWhile (fun c => c == ' ')).dropWhile isNameChar).takeWhile
              (fun c => c == ' ') ++
            ((t.dropWhile (fun c => c == ' ')).dropWhile isNameChar).dropWhile
              (fun c => c == ' ') :=
          (List.takeWhile_append_dropWhile _ _).symm
        conv_lhs => rw [e1, e2, e3, hr3eq]
        simp [List.append_assoc]
    case _ => cases h

theorem tryMatch_some_decomp {s m nm r : Str} (h : tryMatch s = some (m, nm, r)) :
    s = m ++ r ∧ IsPat m nm ∧ r.length + 4 ≤ s.length := by
  cases s with
  | nil => exact absurd h (by simp [tryMatch])
  | cons c0 s1 =>
    cases s1 with
    | nil => exact absurd h (by simp [tryMatch])
    | cons c1 t =>
      rw [show tryMatch (c0 :: c1 :: t) =
        (if c0 = '#' ∧ c1 = '\x7b' then tryMatchAfterOpen '#' t else none) from rfl] at h
      by_cases hc : c0 = '#' ∧ c1 = '\x7b'
      · rw [if_pos hc] at h
        obtain ⟨rfl, rfl⟩ := hc
        obtain ⟨sp1, sp2, hs1, hs2, hne, hnc, hm, ht⟩ := tryMatchAfterOpen_some h
        refine ⟨?_, ⟨sp1, sp2, hs1, hs2, hne, hnc, hm⟩, ?_⟩
        · rw [hm, ht]
          simp
        · rw [ht]
          simp only [List.length_cons, List.length_append]
          have : 1 ≤ nm.length := by
            cases nm with
            | nil => exact absurd rfl hne
            | cons _ _ => simp
          omega
      · rw [if_neg hc] at h
        cases h

theorem isNameChar_not_space {c : Char} (h : isNameChar c = true) : (c == ' ') = false := by
  by_cases hc : c = ' '
  · subst hc
    exact absurd h (by decide)
  · simp [hc]

theorem tryMatchAfterOpen_isPat (lead : Char) (sp1 nm sp2 x : Str)
    (hs1 : ∀ c ∈ sp1, c = ' ') (hs2 : ∀ c ∈ sp2, c = ' ')
    (hne : nm ≠ []) (hnc : ∀ c ∈ nm, isNameChar c = true) :
    tryMatchAfterOpen lead (sp1 ++ (nm ++ (sp2 ++ ('\x7d' :: x)))) =
      some (lead :: '\x7b' :: (sp1 ++ nm ++ sp2 ++ ['\x7d']), nm, x) := by
  obtain ⟨ht1, hd1⟩ := takeWhile_dropWhile_exact (fun c => c == ' ') sp1
    (nm ++ (sp2 ++ ('\x7d' :: x)))
    (fun c hc => by rw [hs1 c hc]; rfl)
    (by
      intro c hc
      cases nm with
      | nil => exact absurd rfl hne
      | cons n0 nm' =>
        have hcn : n0 = c := by
          simpa using hc
        subst hcn
        exact isNameChar_not_space (hnc n0 (List.mem_cons_self n0 nm')))
  obtain ⟨ht2, hd2⟩ := takeWhile_dropWhile_exact isNameChar nm (sp2 ++ ('\x7d' :: x))
    (fun c hc => hnc c hc)
    (by
      intro c hc
      cases sp2 with
      | nil =>
        have hcn : '\x7d' = c := by simpa using hc
        subst hcn
        decide
      | cons s0 sp2' =>
        have hcn : s0 = c := by simpa using hc
        subst hcn
        have hsp : s0 = ' ' := hs2 s0 (List.mem_cons_self s0 sp2')
        subst hsp
        decide)
  obtain ⟨ht3, hd3⟩ := takeWhile_dropWhile_exact (fun c => c == ' ') sp2 ('\x7d' :: x)
    (fun c hc => by rw [hs2 c hc]; rfl)
    (by
      intro c hc
      have hcn : '\x7d' = c := by simpa using hc
      subst hcn
      decide)
  have hemp : nm.isEmpty = false := by
    cases nm with
    | nil => exact absurd rfl hne
    | cons _ _ => rfl
  simp only [tryMatchAfterOpen, ht1, hd1, ht2, hd2, ht3, hd3, hemp, Bool.false_eq_true,
    if_false]

theorem tryMatch_of_isPat {m nm : Str} (h : IsPat m nm) (x : Str) :
    tryMatch (m ++ x) = some (m, nm, x) := by
  obtain ⟨sp1, sp2, hs1, hs2, hne, hnc, hm⟩ := h
  subst hm
  show tryMatch ('#' :: '\x7b' :: ((sp1 ++ nm ++ sp2 ++ ['\x7d']) ++ x)) = _
  rw [show tryMatch ('#' :: '\x7b' :: ((sp1 ++ nm ++ sp2 ++ ['\x7d']) ++ x)) =
    tryMatchAfterOpen '#' ((sp1 ++ nm ++ sp2 ++ ['\x7d']) ++ x) from by simp [tryMatch]]
  have hassoc : (sp1 ++ nm ++ sp2 ++ ['\x7d']) ++ x =
      sp1 ++ (nm ++ (sp2 ++ ('\x7d' :: x))) := by
    simp [List.append_assoc]
  rw [hassoc, tryMatchAfterOpen_isPat '#' sp1 nm sp2 x hs1 hs2 hne hnc]

theorem tailStr_cons (m nm seg : Str) (L : List (Str × Str × Str)) :
    tailStr ((m, nm, seg) :: L) = (m ++ seg) ++ tailStr L := by
  simp [tailStr]

theorem piecesOK_cons {m nm seg : Str} {L : List (Str × Str × Str)} :
    PiecesOK ((m, nm, seg) :: L) ↔
      IsPat m nm ∧ SegNoMatch seg (tailStr L) ∧ PiecesOK L := by
  simp [PiecesOK, tailStr]

theorem scanPHF_sound :
    ∀ f s, s.length ≤ f →
      s = (scanPHF f s).1 ++ tailStr (scanPHF f s).2 ∧
      SegNoMatch (scanPHF f s).1 (tailStr (scanPHF f s).2) ∧
      PiecesOK (scanPHF f s).2 := by
  intro f
  induction f with
  | zero =>
    intro s hs
    have : s = [] := List.eq_nil_of_length_eq_zero (Nat.le_zero.mp hs)
    subst this
    refine ⟨rfl, ?_, trivial⟩
    intro o ho
    simp [scanPHF] at ho
  | succ f ih =>
    intro s hs
    cases s with
    | nil =>
      refine ⟨rfl, ?_, trivial⟩
      intro o ho
      simp [scanPHF] at ho
    | cons c rest =>
      cases hm : tryMatch (c :: rest) with
      | some res =>
        obtain ⟨m, nm, r⟩ := res
        obtain ⟨hdec, hpat, hlen⟩ := tryMatch_some_decomp hm
        have hr : r.length ≤ f := by
          simp only [List.length_cons] at hs hlen
          omega
        obtain ⟨ih1, ih2, ih3⟩ := ih r hr
        have hscan : scanPHF (f + 1) (c :: rest) =
            ([], (m, nm, (scanPHF f r).1) :: (scanPHF f r).2) := by
          simp [scanPHF, hm]
        rw [hscan]
        refine ⟨?_, ?_, ?_⟩
        · simp only [tailStr_cons, List.nil_append]
          rw [hdec]
          conv_lhs => rw [ih1]
          simp [List.append_assoc]
        · intro o ho
          simp at ho
        · rw [piecesOK_cons]
          exact ⟨hpat, ih2, ih3⟩
      | none =>
        have hr : rest.length ≤ f := by
          simp only [List.length_cons] at hs
          omega
        obtain ⟨ih1, ih2, ih3⟩ := ih rest hr
        have hscan : scanPHF (f + 1) (c :: rest) =
            (c :: (scanPHF f rest).1, (scanPHF f rest).2) := by
          simp [scanPHF, hm]
        rw [hscan]
        refine ⟨?_, ?_, ih3⟩
        · simp only [List.cons_append]
          rw [← ih1]
        · intro o ho
          cases o with
          | zero =>
            simp only [List.drop_zero, List.cons_append]
            rw [← ih1]
            exact hm
          | succ o' =>
            simp only [List.length_cons] at ho
            have := ih2 o' (by omega)
            simpa using this

theorem scanPH_sound (s : Str) :
    s = (scanPH s).1 ++ tailStr (scanPH s).2 ∧
    SegNoMatch (scanPH s).1 (tailStr (scanPH s).2) ∧
    PiecesOK (scanPH s).2 :=
  scanPHF_sound s.length s le_rfl

theorem replaceFirst_eq (s old new : Str) :
    replaceFirst s old new =
      if old.isPrefixOf s then new ++ s.drop old.length
      else
        match s with
        | [] => []
        | c :: r => c :: replaceFirst r old new := by
  rw [replaceFirst.eq_def]

theorem replaceFirst_at :
    ∀ (P pat R repl : Str),
      (∀ j, j < P.length → ¬ pat.isPrefixOf ((P ++ (pat ++ R)).drop j) = true) →
      replaceFirst (P ++ (pat ++ R)) pat repl = P ++ (repl ++ R) := by
  intro P
  induction P with
  | nil =>
    intro pat R repl _
    simp only [List.nil_append]
    rw [replaceFirst_eq, if_pos (isPrefixOf_append_self pat R), List.drop_left]
  | cons c P' ih =>
    intro pat R repl h
    have h0 := h 0 (by simp)
    simp only [List.drop_zero] at h0
    have hfalse : pat.isPrefixOf ((c :: P') ++ (pat ++ R)) = false :=
      Bool.not_eq_true _ ▸ (Bool.eq_false_iff.mpr (fun hc => h0 hc))
    rw [replaceFirst_eq, hfalse]
    simp only [Bool.false_eq_true, if_false, List.cons_append]
    rw [ih pat R repl (fun j hj => by
      have := h (j + 1) (by simp; omega)
      simpa using this)]

theorem segNoMatch_safePre {seg tail : Str} (h : SegNoMatch seg tail) :
    SafePre seg tail := by
  intro j hj m nm hpat hpre
  have hd : (seg ++ tail).drop j = seg.drop j ++ tail := by
    rw [List.drop_append_eq_append_drop, Nat.sub_eq_zero_of_le (le_of_lt hj), List.drop_zero]
  rw [hd] at hpre
  obtain ⟨x, hx⟩ := (isPrefixOf_iff_ex _ _).mp hpre
  have h1 := h j hj
  rw [hx, tryMatch_of_isPat hpat x] at h1
  cases h1

theorem isPat_shape {m nm : Str} (h : IsPat m nm) :
    ∃ m', m = '#' :: m' ∧ m' ≠ [] ∧ ∀ c ∈ m', innerPatChar c = true := by
  obtain ⟨sp1, sp2, hs1, hs2, hne, hnc, hm⟩ := h
  refine ⟨'\x7b' :: (sp1 ++ nm ++ sp2 ++ ['\x7d']), hm, by simp, ?_⟩
  intro c hc
  rcases List.mem_cons.mp hc with rfl | hc2
  · rfl
  · simp only [List.append_assoc, List.mem_append, List.mem_singleton] at hc2
    rcases hc2 with hsp | hnm | hsp | rfl
    · rw [hs1 c hsp]
      rfl
    · simp [innerPatChar, hnc c hnm]
    · rw [hs2 c hsp]
      rfl
    · rfl

theorem tokOK_ne_nil {t : Str} (h : tokOK t) : t ≠ [] := by
  cases t with
  | nil => cases h
  | cons _ _ => simp

theorem tokOK_no_hash {t : Str} (h : tokOK t) : '#' ∉ t := by
  cases t with
  | nil => cases h
  | cons c r =>
    obtain ⟨h1, h2, h3⟩ := h
    intro hmem
    rcases List.mem_cons.mp hmem with heq | hm
    · exact h2 heq.symm
    · exact h3 hm

theorem safePre_extend {P tok seg tail' T : Str}
    (hP : SafePre P T) (htok : tokOK tok) (hseg : SegNoMatch seg tail') :
    SafePre (P ++ (tok ++ seg)) tail' := by
  intro j hj m nm hpat hpre
  simp only [List.length_append] at hj
  have hfull : ((P ++ (tok ++ seg)) ++ tail') = P ++ (tok ++ (seg ++ tail')) := by
    simp [List.append_assoc]
  rw [hfull] at hpre
  by_cases hA : j < P.length
  · have hd : (P ++ (tok ++ (seg ++ tail'))).drop j = P.drop j ++ (tok ++ (seg ++ tail')) := by
      rw [List.drop_append_eq_append_drop, Nat.sub_eq_zero_of_le (le_of_lt hA),
        List.drop_zero]
    rw [hd] at hpre
    have hdne : P.drop j ≠ [] := by
      intro h0
      have : (P.drop j).length = P.length - j := by simp
      rw [h0] at this
      simp at this
      omega
    by_cases hlen : m.length ≤ (P.drop j).length
    · have h1 : m.isPrefixOf (P.drop j) = true := isPrefixOf_append_short hpre hlen
      have h2 : m.isPrefixOf (P.drop j ++ T) = true := isPrefixOf_extend h1 T
      refine hP j hA m nm hpat ?_
      rw [List.drop_append_eq_append_drop, Nat.sub_eq_zero_of_le (le_of_lt hA),
        List.drop_zero]
      exact h2
    · push_neg at hlen
      obtain ⟨e, hene, hme, hex⟩ := isPrefixOf_append_long hpre hlen
      obtain ⟨m', hm', _, hm'inner⟩ := isPat_shape hpat
      cases e with
      | nil => exact absurd rfl hene
      | cons e0 e' =>
        have he0 : e0 ∈ m' := by
          cases hdp : P.drop j with
          | nil => exact absurd hdp hdne
          | cons d0 d' =>
            rw [hdp] at hme
            rw [hm'] at hme
            injection hme with h1 h2
            rw [h2]
            simp
        cases htokc : tok with
        | nil => exact absurd htokc (tokOK_ne_nil htok)
        | cons t0 tk =>
          have he0t : e0 = t0 := by
            rw [htokc] at hex
            obtain ⟨x, hx⟩ := (isPrefixOf_iff_ex _ _).mp hex
            simp only [List.cons_append] at hx
            injection hx with h1 _
            exact h1.symm
          rw [htokc] at htok
          obtain ⟨hinner, _, _⟩ := htok
          have := hm'inner e0 he0
          rw [he0t, hinner] at this
          cases this
  · push_neg at hA
    by_cases hB : j < P.length + tok.length
    · have hsub : j - P.length < tok.length := by omega
      have hd : (P ++ (tok ++ (seg ++ tail'))).drop j =
          tok.drop (j - P.length) ++ (seg ++ tail') := by
        rw [List.drop_append_eq_append_drop, List.drop_of_length_le hA,
          List.nil_append, List.drop_append_eq_append_drop,
          show j - P.length - tok.length = 0 from by omega, List.drop_zero]
      rw [hd] at hpre
      obtain ⟨m', hm', _, _⟩ := isPat_shape hpat
      cases hdt : tok.drop (j - P.length) with
      | nil =>
        have hlen2 : (tok.drop (j - P.length)).length = tok.length - (j - P.length) := by
          simp
        rw [hdt] at hlen2
        simp at hlen2
        omega
      | cons c y =>
        rw [hdt] at hpre
        obtain ⟨x, hx⟩ := (isPrefixOf_iff_ex _ _).mp hpre
        rw [hm'] at hx
        simp only [List.cons_append] at hx
        injection hx with h1 _
        have hcmem : c ∈ tok := List.drop_subset _ _ (hdt ▸ List.mem_cons_self c y)
        rw [h1] at hcmem
        exact tokOK_no_hash htok hcmem
    · push_neg at hB
      have ho : j - P.length - tok.length < seg.length := by omega
      have hd : (P ++ (tok ++ (seg ++ tail'))).drop j =
          seg.drop (j - P.length - tok.length) ++ tail' := by
        rw [List.drop_append_eq_append_drop, List.drop_of_length_le hA,
          List.nil_append, List.drop_append_eq_append_drop,
          List.drop_of_length_le (show tok.length ≤ j - P.length from by omega),
          List.nil_append, List.drop_append_eq_append_drop,
          show j - P.length - tok.length - seg.length = 0 from by omega,
          List.drop_zero]
      rw [hd] at hpre
      obtain ⟨x, hx⟩ := (isPrefixOf_iff_ex _ _).mp hpre
      have h1 := hseg (j - P.length - tok.length) ho
      rw [hx, tryMatch_of_isPat hpat x] at h1
      cases h1

/-- The symbolic pieces contributed by a scanner decomposition: one
placeholder token and one literal segment per match. -/
def decompPieces : List (Str × Str × Str) → List Piece
  | [] => []
  | (_, nm, seg) :: rest => .ph nm :: .lit seg :: decompPieces rest

theorem replaceHolder_decomp (tr : Translator) (p : Param) (htr : translatorOK tr) :
    ∀ (L : List (Str × Str × Str)) (P : Str) (args : List Value) (q : Str) (a : List Value),
      SafePre P (tailStr L) → PiecesOK L →
      replaceHolder (L.map fun x => (x.1, x.2.1)) (P ++ tailStr L) args tr p = .ok (q, a) →
      q = P ++ flattenPieces tr (decompPieces L) ∧
      ∃ vals, a = args ++ vals ∧
        List.Forall₂ (fun nm v => p nm = some v) (L.map fun x => x.2.1) vals := by
  intro L
  induction L with
  | nil =>
    intro P args q a hsafe hok h
    simp only [List.map_nil, replaceHolder] at h
    injection h with h1
    injection h1 with hq ha
    refine ⟨?_, [], by simp [ha.symm], List.Forall₂.nil⟩
    rw [← hq]
    simp [tailStr, decompPieces, flattenPieces]
  | cons hd L' ih =>
    obtain ⟨m, nm, seg⟩ := hd
    intro P args q a hsafe hok h
    rw [piecesOK_cons] at hok
    obtain ⟨hpat, hseg, hok'⟩ := hok
    simp only [List.map_cons, replaceHolder] at h
    cases hp : p nm with
    | none =>
      rw [hp] at h
      cases h
    | some v =>
      rw [hp] at h
      have htail : P ++ tailStr ((m, nm, seg) :: L') =
          P ++ (m ++ (seg ++ tailStr L')) := by
        rw [tailStr_cons]
        simp [List.append_assoc]
      rw [htail] at h
      have hrf : replaceFirst (P ++ (m ++ (seg ++ tailStr L'))) m (tr nm) =
          P ++ (tr nm ++ (seg ++ tailStr L')) :=
        replaceFirst_at P m (seg ++ tailStr L') (tr nm) (fun j hj hc =>
          hsafe j hj m nm hpat (by rw [htail]; exact hc))
      rw [hrf] at h
      have hassoc : P ++ (tr nm ++ (seg ++ tailStr L')) =
          (P ++ (tr nm ++ seg)) ++ tailStr L' := by
        simp [List.append_assoc]
      rw [hassoc] at h
      have hsafe' : SafePre (P ++ (tr nm ++ seg)) (tailStr L') :=
        safePre_extend hsafe (htr nm) hseg
      obtain ⟨hq, vals', hvals', hforall⟩ := ih (P ++ (tr nm ++ seg)) (args ++ [v]) q a
        hsafe' hok' h
      refine ⟨?_, v :: vals', ?_, List.Forall₂.cons hp hforall⟩
      · rw [hq]
        simp [decompPieces, flattenPieces, List.append_assoc]
      · rw [hvals']
        simp

/-- The rendered fragment and argument list admit a common symbolic
decomposition: the SQL is the flattening of a piece list, and the args
are, in order, the values resolved for the placeholder names of that
piece list — the i-th arg belongs to the i-th placeholder token in
left-to-right order of the SQL. -/
def PiecesSpec (tr : Translator) (p : Param) (q : Str) (a : List Value) : Prop :=
  ∃ pieces : List Piece, q = flattenPieces tr pieces ∧
    List.Forall₂ (fun nm v => p nm = some v) (phNames pieces) a

theorem flattenPieces_append (tr : Translator) (l1 l2 : List Piece) :
    flattenPieces tr (l1 ++ l2) = flattenPieces tr l1 ++ flattenPieces tr l2 := by
  induction l1 with
  | nil => rfl
  | cons x rest ih =>
    cases x <;> simp [flattenPieces, ih, List.append_assoc]

theorem phNames_append (l1 l2 : List Piece) :
    phNames (l1 ++ l2) = phNames l1 ++ phNames l2 := by
  induction l1 with
  | nil => rfl
  | cons x rest ih =>
    cases x <;> simp [phNames, ih]

theorem phNames_decompPieces (L : List (Str × Str × Str)) :
    phNames (decompPieces L) = L.map fun x => x.2.1 := by
  induction L with
  | nil => rfl
  | cons hd rest ih =>
    obtain ⟨m, nm, seg⟩ := hd
    simp [decompPieces, phNames, ih]

theorem piecesSpec_nil (tr : Translator) (p : Param) : PiecesSpec tr p [] [] :=
  ⟨[], rfl, List.Forall₂.nil⟩

theorem piecesSpec_append {tr : Translator} {p : Param} {q1 q2 : Str}
    {a1 a2 : List Value} (sep : Str)
    (h1 : PiecesSpec tr p q1 a1) (h2 : PiecesSpec tr p q2 a2) :
    PiecesSpec tr p (q1 ++ sep ++ q2) (a1 ++ a2) := by
  obtain ⟨p1, hq1, hf1⟩ := h1
  obtain ⟨p2, hq2, hf2⟩ := h2
  refine ⟨p1 ++ (.lit sep :: p2), ?_, ?_⟩
  · rw [hq1, hq2, flattenPieces_append]
    simp [flattenPieces, List.append_assoc]
  · rw [phNames_append]
    simp only [phNames]
    exact forall₂Append hf1 hf2

theorem exBindErr {α β : Type} (e : String) (k : α → Except String β) :
    (do let x ← (Except.error e : Except String α); k x) = Except.error e := rfl

theorem textNodeAccept_piecesSpec (value : Str) (tr : Translator) (p : Param)
    (htr : translatorOK tr) (hsub : findSubs value = []) (q : Str) (a : List Value)
    (h : textNodeAccept value tr p = .ok (q, a)) : PiecesSpec tr p q a := by
  unfold textNodeAccept at h
  by_cases hc : ((findPlaceholders value).isEmpty && (findSubs value).isEmpty) = true
  · rw [if_pos hc] at h
    injection h with h1
    injection h1 with hq ha
    refine ⟨[.lit value], ?_, ?_⟩
    · rw [← hq]
      simp [flattenPieces]
    · rw [← ha]
      exact List.Forall₂.nil
  · rw [if_neg hc] at h
    rw [hsub] at h
    obtain ⟨hrecover, hsegnm, hok⟩ := scanPH_sound value
    cases hrh : replaceHolder (findPlaceholders value) value [] tr p with
    | error e =>
      rw [hrh, exBindErr] at h
      cases h
    | ok pr =>
      obtain ⟨q1, args⟩ := pr
      rw [hrh] at h
      simp only [exBindOk, replaceTextSubstitution] at h
      injection h with h1
      injection h1 with hq ha
      have hrh' : replaceHolder ((scanPH value).2.map fun x => (x.1, x.2.1))
          ((scanPH value).1 ++ tailStr (scanPH value).2) [] tr p = .ok (q1, args) := by
        rw [← hrecover]
        exact hrh
      obtain ⟨hq1, vals, hvals, hfa⟩ := replaceHolder_decomp tr p htr (scanPH value).2
        (scanPH value).1 [] q1 args (segNoMatch_safePre hsegnm) hok hrh'
      refine ⟨.lit (scanPH value).1 :: decompPieces (scanPH value).2, ?_, ?_⟩
      · rw [← hq, hq1]
        simp [flattenPieces]
      · simp only [phNames, phNames_decompPieces]
        rw [← ha, hvals]
        simpa using hfa

theorem groupAccept_piecesSpec (tr : Translator) (p : Param) :
    ∀ nodes : List Node,
      (∀ n ∈ nodes, ∀ q a, acceptNode n tr p = .ok (q, a) → PiecesSpec tr p q a) →
      ∀ q a, groupAccept nodes tr p = .ok (q, a) → PiecesSpec tr p q a := by
  intro nodes
  induction nodes with
  | nil =>
    intro _ q a h
    injection h with h1
    injection h1 with hq ha
    rw [← hq, ← ha]
    exact piecesSpec_nil tr p
  | cons n rest ih =>
    intro H q a h
    simp only [groupAccept, groupLoopWith] at h
    cases hn : acceptNode n tr p with
    | error e =>
      rw [hn, exBindErr] at h
      cases h
    | ok r =>
      rw [hn] at h
      simp only [exBindOk] at h
      cases hrest : groupLoopWith (fun n' p' => acceptNode n' tr p') p rest with
      | error e =>
        rw [hrest, exBindErr] at h
        cases h
      | ok r2 =>
        rw [hrest] at h
        simp only [exBindOk] at h
        injection h with h1
        injection h1 with hq ha
        have hps1 := H n (List.mem_cons_self n rest) r.1 r.2 (by rw [hn])
        have hps2 := ih (fun n' hn' => H n' (List.mem_cons_of_mem n hn')) r2.1 r2.2 hrest
        rw [← hq, ← ha]
        exact piecesSpec_append _ hps1 hps2

theorem textish_piecesSpec (tr : Translator) (p : Param) (htr : translatorOK tr) :
    ∀ n, Textish n → ∀ q a, acceptNode n tr p = .ok (q, a) → PiecesSpec tr p q a := by
  intro n hn
  induction hn with
  | pureText s =>
    intro q a h
    have hd : acceptNode (.pureText s) tr p = .ok (s, []) := rfl
    rw [hd] at h
    injection h with h1
    injection h1 with hq ha
    refine ⟨[.lit s], ?_, ?_⟩
    · rw [← hq]
      simp [flattenPieces]
    · rw [← ha]
      exact List.Forall₂.nil
  | text s hsub =>
    intro q a h
    have hd : acceptNode (.text s) tr p = textNodeAccept s tr p := rfl
    rw [hd] at h
    exact textNodeAccept_piecesSpec s tr p htr hsub q a h
  | cond e nodes hmem ih =>
    intro q a h
    rw [acceptNode_cond] at h
    cases hb : conditionMatch e p with
    | error err =>
      rw [hb, exBindErr] at h
      cases h
    | ok b =>
      rw [hb] at h
      simp only [exBindOk] at h
      cases b with
      | false =>
        simp only [Bool.false_eq_true, if_false] at h
        injection h with h1
        injection h1 with hq ha
        rw [← hq, ← ha]
        exact piecesSpec_nil tr p
      | true =>
        simp only [if_true] at h
        exact groupAccept_piecesSpec tr p nodes ih q a h

/-- The text `id = #{id}` as a character list. -/
def exIdStr : Str := ['i', 'd', ' ', '=', ' ', '#', '\x7b', 'i', 'd', '\x7d']

/-- A parameter object binding only `id` to the integer 7. -/
def idSevenParam : Param := fun n => if n = ['i', 'd'] then some (.vInt 7) else none

/-- C1 counterexample: a statement whose single node is a trim node
with suffix override `?` over the text `#{x}`, rendered with the `?`
translator against a scope binding x, succeeds with the empty SQL
string and one argument: the returned SQL contains zero placeholder
tokens while the argument list has length one, refuting the claimed
correspondence for arbitrary statements. -/
theorem c1_trim_drops_placeholder_token :
    groupAccept [.trimN [.text phXStr] [] [] [] [['?']]] qMarkTranslator xOneParam =
      .ok ([], [.vInt 1]) := rfl

/-- C1 as amended: for every statement node list built from plain text
(without `${…}` substitution sites) and conditionals — so that no
trim/where/set post-processing can delete emitted placeholder text —
and every translator whose tokens are non-empty, contain no `#` and do
not begin with a brace, space or name character (`?`, `$1`, `:name` all
qualify), a successful render decomposes as literal text interleaved
with the emitted placeholder tokens, and the argument list is exactly
the values resolved for the placeholder names in left-to-right order of
the final SQL: the i-th arg corresponds to the i-th emitted placeholder
token, and their counts agree. -/
theorem c1_placeholder_argument_correspondence (nodes : List Node) (tr : Translator)
    (p : Param) (htr : translatorOK tr) (htx : ∀ n ∈ nodes, Textish n)
    (q : Str) (a : List Value) (h : groupAccept nodes tr p = .ok (q, a)) :
    ∃ pieces : List Piece, q = flattenPieces tr pieces ∧
      List.Forall₂ (fun nm v => p nm = some v) (phNames pieces) a :=
  groupAccept_piecesSpec tr p nodes
    (fun n hn => textish_piecesSpec tr p htr n (htx n hn)) q a h

/-- C1 witness: the statement `id = #{id}` with the `?` translator and
`id` bound to 7 renders to `id = ?` with argument list `[7]`, and the
correspondence theorem applies to it. -/
theorem c1_placeholder_argument_correspondence_witness :
    ∃ pieces : List Piece, "id = ?".data = flattenPieces qMarkTranslator pieces ∧
      List.Forall₂ (fun nm v => idSevenParam nm = some v) (phNames pieces)
        [Value.vInt 7] :=
  c1_placeholder_argument_correspondence [.text exIdStr] qMarkTranslator idSevenParam
    (fun _ => ⟨by decide, by decide, by simp⟩)
    (by
      intro n hn
      have : n = Node.text exIdStr := by simpa using hn
      subst this
      exact Textish.text exIdStr rfl)
    "id = ?".data [Value.vInt 7] rfl
